import Mathlib

/-!
Verification of the peer-connection manager and mining manager of the
vanillacoin node core (`tcp_connection_manager.cpp`, `mining_manager.cpp`,
`configuration.cpp`) against its natural-language specification.

The C++ code is shallowly embedded: the connection table is a list of
entries (the `std::map` keyed by remote endpoint, holding weak handles),
external collaborators (network ban list, address-book group classifier,
adjusted time, configuration) are packaged in an environment record, and
each member function becomes a pure Lean function from the old state to
the new state together with a record of its observable side effects
(transport stopped, entry inserted, address-book notified, blocks handed
to the acceptance pipeline, ...).  Machine integers that can overflow in
a way that matters (the 32-bit extra nonce) are modelled as `Nat` with
explicit reduction modulo 2^32.
-/

/-- A TCP endpoint: remote IP address plus port (`boost::asio::ip::tcp::endpoint`).
The IP address is abstracted to a `Nat`. -/
structure endpoint where
  addr : Nat
  port : Nat
deriving DecidableEq, Repr

/-- One entry of `m_tcp_connections`: the map key (the remote endpoint at
insertion time) together with the observable state of the weak handle it
stores: whether `lock()` succeeds (`alive`), whether the locked
connection reports `is_transport_valid()`, and the result of
`socket().remote_endpoint()` on its transport (`none` models the throw
on a socket that is not yet connected). -/
structure conn_entry where
  ep : endpoint
  alive : Bool
  transport_valid : Bool
  remote : Option endpoint
deriving DecidableEq, Repr

/-- External collaborators of `tcp_connection_manager`, read-only during one
call: the ban predicate (`network::is_address_banned`), the address-book
group classifier (`protocol::network_address_t::group()`, a pure function
of the IP address), the adjusted wall clock (`time::get_adjusted`), and the
configured inbound maximum (`configuration::network_tcp_inbound_maximum`). -/
structure cm_env where
  banned : Nat → Bool
  groupOf : Nat → Nat
  adjusted_time : Int
  inbound_max : Nat

/-- `m_tcp_connections[k] = v`: `std::map` assignment replaces the value at
an existing key and otherwise adds a new key. -/
def map_insert (t : List conn_entry) (e : conn_entry) : List conn_entry :=
  if t.any (fun v => v.ep = e.ep) then
    t.map (fun v => if v.ep = e.ep then e else v)
  else
    t ++ [e]

/-- Outcome of `tcp_connection_manager::handle_accept`: the table afterwards,
whether `transport->stop()` was called, and whether a new entry was
inserted (and the connection started). -/
structure accept_result where
  table : List conn_entry
  transport_stopped : Bool
  inserted : Bool
deriving DecidableEq, Repr

/-- `tcp_connection_manager::handle_accept(transport)`, for a transport whose
`socket().remote_endpoint()` is `remote`.  In source order: the
duplicate-IP scan over the map keys, the ban check on the remote address,
the capacity check against the configured inbound maximum; on all three
failures the transport is stopped and nothing is inserted, otherwise an
incoming `tcp_connection` is created, retained under the remote endpoint
key, and started. -/
def tcp_connection_manager.handle_accept (env : cm_env) (table : List conn_entry)
    (remote : endpoint) : accept_result :=
  if table.any (fun e => e.ep.addr = remote.addr) then
    { table := table, transport_stopped := true, inserted := false }
  else if env.banned remote.addr then
    { table := table, transport_stopped := true, inserted := false }
  else if env.inbound_max ≤ table.length then
    { table := table, transport_stopped := true, inserted := false }
  else
    { table := map_insert table
        { ep := remote, alive := true, transport_valid := true,
          remote := some remote },
      transport_stopped := false, inserted := true }

/-- Outcome of `tcp_connection_manager::connect`: the table afterwards, the
boolean return value, and whether `address_manager::on_connection_attempt`
was invoked. -/
structure connect_result where
  table : List conn_entry
  ok : Bool
  attempt_notified : Bool
deriving DecidableEq, Repr

/-- `tcp_connection_manager::connect(ep)`.  In source order: return `false`
if the address is banned; else, if `ep` is not yet a key of the table,
notify the address manager of the attempt, create an outgoing transport
and connection (its socket not yet connected, so `remote := none`),
retain it under key `ep`, start it and return `true`; else return
`false` with no side effect. -/
def tcp_connection_manager.connect (env : cm_env) (table : List conn_entry)
    (ep : endpoint) : connect_result :=
  if env.banned ep.addr then
    { table := table, ok := false, attempt_notified := false }
  else if table.any (fun e => e.ep = ep) = false then
    { table := map_insert table
        { ep := ep, alive := true, transport_valid := true, remote := none },
      ok := true, attempt_notified := true }
  else
    { table := table, ok := false, attempt_notified := false }

/-- A candidate peer address as returned by `address_manager::select`:
mapped IPv4 address, port, last-seen timestamp, last connection-attempt
timestamp, and the `is_valid()` / `is_local()` flags.  Its diversity group
is computed from the address by `cm_env.groupOf`. -/
structure network_address_t where
  addr : Nat
  port : Nat
  timestamp : Int
  last_try : Int
  valid : Bool
  is_local : Bool
deriving DecidableEq, Repr

/-- The TCP endpoint `(addr.ipv4_mapped_address(), addr.port)` built from a
candidate address in `tick`. -/
def network_address_t.to_endpoint (a : network_address_t) : endpoint :=
  { addr := a.addr, port := a.port }

/-- The prune phase of `tcp_connection_manager::tick`: entries whose weak
handle no longer locks are erased; entries that lock but whose transport
is invalid are stopped and erased; the rest are kept. -/
def tcp_connection_manager.prune (table : List conn_entry) : List conn_entry :=
  table.filter (fun e => e.alive && e.transport_valid)

/-- The `is_in_same_group` scan of one top-up iteration: over each table
entry whose weak handle locks and whose transport's
`socket().remote_endpoint()` does not throw, compare the diversity group
of that remote address with the candidate's group (the exception on a
not-yet-connected socket is swallowed, leaving the flag unset). -/
def in_same_group (env : cm_env) (table : List conn_entry)
    (a : network_address_t) : Bool :=
  table.any (fun e =>
    e.alive &&
      (match e.remote with
       | some r => decide (env.groupOf r.addr = env.groupOf a.addr)
       | none => false))

/-- The top-up `for` loop of `tick`, iteration counter `i` against the bound
`minimum_tcp_connections - m_tcp_connections.size()` (re-evaluated every
iteration as the table grows).  `cands i` is the address returned by the
`i`-th call to `address_manager::select`; the candidate is skipped when it
is invalid, local, or in the same group as a connected peer, skipped when
its last attempt is less than 600 seconds old, and otherwise passed to
`connect`.  `calls` accumulates the endpoints handed to `connect`, each
tagged with the iteration index of the candidate that produced it. -/
def tcp_connection_manager.tick_top_up (env : cm_env) (min_conn : Nat)
    (cands : Nat → network_address_t) (i : Nat) (table : List conn_entry)
    (calls : List (Nat × endpoint)) : List conn_entry × List (Nat × endpoint) :=
  if h : i < min_conn - table.length then
    let addr := cands i
    if addr.valid = false ∨ addr.is_local = true ∨
        in_same_group env table addr = true then
      tcp_connection_manager.tick_top_up env min_conn cands (i + 1) table calls
    else if env.adjusted_time - addr.last_try < 600 then
      tcp_connection_manager.tick_top_up env min_conn cands (i + 1) table calls
    else
      let res := tcp_connection_manager.connect env table addr.to_endpoint
      tcp_connection_manager.tick_top_up env min_conn cands (i + 1) res.table
        (calls ++ [(i, addr.to_endpoint)])
  else
    (table, calls)
termination_by min_conn - i
decreasing_by
  all_goals
    exact Nat.sub_succ_lt_self _ _
      (Nat.lt_of_lt_of_le h (Nat.sub_le _ _))

/-- One run of `tcp_connection_manager::tick` (success path, `ec` unset):
prune the table, then, if fewer than `minimum_tcp_connections + 1` entries
remain, run the top-up loop; returns the resulting table and the list of
endpoints passed to `connect` (the rescheduling of the timer and the
status publication carry no table state). -/
def tcp_connection_manager.tick (env : cm_env) (min_conn : Nat)
    (cands : Nat → network_address_t) (table : List conn_entry) :
    List conn_entry × List (Nat × endpoint) :=
  let pruned := tcp_connection_manager.prune table
  if pruned.length < min_conn + 1 then
    tcp_connection_manager.tick_top_up env min_conn cands 0 pruned []
  else
    (pruned, [])

/-- Modelled from the spec: the `state_pow_...` / `state_pos_...` enums are
declared in `mining_manager.hpp`, which is not among the given sources;
the spec fixes their order through the transition chain
none → starting → started → stopping → stopped, which matches the
comparisons `m_state_pow < state_pow_starting` in the source.  One
inductive mirrors both enums. -/
inductive machine_state
  | state_none
  | state_starting
  | state_started
  | state_stopping
  | state_stopped
deriving DecidableEq, Repr

/-- Numeric value of the enum constant, for the `<` comparison in the
source. -/
def machine_state.code : machine_state → Nat
  | .state_none => 0
  | .state_starting => 1
  | .state_started => 2
  | .state_stopping => 3
  | .state_stopped => 4

/-- The fields of `mining_manager` touched by the start/stop operations:
the two state-machine fields, the published hash rate, the rate-window
start, the Proof-of-Work worker thread vector (modelled by its size) and
the Proof-of-Stake thread handle (modelled by whether it is set). -/
structure mining_manager where
  m_state_pow : machine_state
  m_state_pos : machine_state
  m_hashes_per_second : ℚ
  m_hps_timer_start : Int
  threads_ : Nat
  thread_pos_ : Bool
deriving DecidableEq, Repr

/-- The constructor-initialised `mining_manager`. -/
def mining_manager.init : mining_manager :=
  { m_state_pow := .state_none, m_state_pos := .state_none,
    m_hashes_per_second := 0, m_hps_timer_start := 0,
    threads_ := 0, thread_pos_ := false }

/-- Guard of `mining_manager::start_proof_of_work`:
`m_state_pow < state_pow_starting || m_state_pow == state_pow_stopped`. -/
def pow_start_guard (m : mining_manager) : Bool :=
  decide (m.m_state_pow.code < machine_state.state_starting.code) ||
    decide (m.m_state_pow = .state_stopped)

/-- `mining_manager::start_proof_of_work` (under `mutex_`): when the guard
holds, set the state to `starting`, spawn `cores = 1` worker threads
(hard-coded to one CPU core regardless of configuration), retain them,
and set the state to `started`; otherwise do nothing. -/
def mining_manager.start_proof_of_work (m : mining_manager) : mining_manager :=
  if pow_start_guard m then
    { m with m_state_pow := .state_started, threads_ := m.threads_ + 1 }
  else
    m

/-- The sequence of values assigned to `m_state_pow` during one call of
`start_proof_of_work`, in order. -/
def mining_manager.start_proof_of_work_trace (m : mining_manager) :
    List machine_state :=
  if pow_start_guard m then [.state_starting, .state_started] else []

/-- `mining_manager::stop_proof_of_work` (under `mutex_`): a no-op unless the
state is `started`; otherwise set the state to `stopping`, join the worker
threads (exceptions swallowed), set `m_hashes_per_second` to `0.0f`, post
the status callback, set `m_hps_timer_start` to 0, clear the thread
vector, and set the state to `stopped`. -/
def mining_manager.stop_proof_of_work (m : mining_manager) : mining_manager :=
  if m.m_state_pow = .state_started then
    { m with
        m_state_pow := .state_stopped
        m_hashes_per_second := 0
        m_hps_timer_start := 0
        threads_ := 0 }
  else
    m

/-- The sequence of values assigned to `m_state_pow` during one call of
`stop_proof_of_work`, in order. -/
def mining_manager.stop_proof_of_work_trace (m : mining_manager) :
    List machine_state :=
  if m.m_state_pow = .state_started then [.state_stopping, .state_stopped]
  else []

/-- Guard of `mining_manager::start_proof_of_stake`:
`m_state_pos < state_pos_starting || m_state_pos == state_pos_stopped`. -/
def pos_start_guard (m : mining_manager) : Bool :=
  decide (m.m_state_pos.code < machine_state.state_starting.code) ||
    decide (m.m_state_pos = .state_stopped)

/-- `mining_manager::start_proof_of_stake` (under `mutex_`): when the guard
holds, set the state to `starting`, allocate the single Proof-of-Stake
thread, and set the state to `started`. -/
def mining_manager.start_proof_of_stake (m : mining_manager) : mining_manager :=
  if pos_start_guard m then
    { m with m_state_pos := .state_started, thread_pos_ := true }
  else
    m

/-- `mining_manager::stop_proof_of_stake` (under `mutex_`): a no-op unless
the state is `started`; otherwise set the state to `stopping`, join the
thread, and set the state to `stopped`. -/
def mining_manager.stop_proof_of_stake (m : mining_manager) : mining_manager :=
  if m.m_state_pos = .state_started then
    { m with m_state_pos := .state_stopped }
  else
    m

/-- `mining_manager::start()`: start Proof-of-Stake unconditionally; then,
if the "mine-cpu" argument is present and `std::stoi` of it is positive,
start Proof-of-Work.  `mine_cpu` is the parsed argument value, `none`
when absent. -/
def mining_manager.start (mine_cpu : Option Int) (m : mining_manager) :
    mining_manager :=
  let m1 := mining_manager.start_proof_of_stake m
  match mine_cpu with
  | some v => if v > 0 then mining_manager.start_proof_of_work m1 else m1
  | none => m1

/-- `mining_manager::stop()`: stop Proof-of-Stake, then stop Proof-of-Work. -/
def mining_manager.stop (m : mining_manager) : mining_manager :=
  mining_manager.stop_proof_of_work (mining_manager.stop_proof_of_stake m)

/-- States of the `mining_manager` observable outside `mutex_`: the
constructor state, or the state after any sequence of the public and
private start/stop operations (together with the hash-rate sample update
performed by the hashing loop). -/
inductive mining_manager.Reach : mining_manager → Prop
  | init : mining_manager.Reach mining_manager.init
  | start_pow {m} : mining_manager.Reach m →
      mining_manager.Reach (mining_manager.start_proof_of_work m)
  | stop_pow {m} : mining_manager.Reach m →
      mining_manager.Reach (mining_manager.stop_proof_of_work m)
  | start_pos {m} : mining_manager.Reach m →
      mining_manager.Reach (mining_manager.start_proof_of_stake m)
  | stop_pos {m} : mining_manager.Reach m →
      mining_manager.Reach (mining_manager.stop_proof_of_stake m)
  | pub {m} (hps : ℚ) (t : Int) : mining_manager.Reach m →
      mining_manager.Reach
        { m with m_hashes_per_second := hps, m_hps_timer_start := t }

/-- The observable fields of a candidate block as seen by `check_work`:
`get_hash()` (already reflecting the final nonce), the proof-of-work
target decoded from `header().bits` by
`big_number::set_compact(...).get_sha256()`, the `is_proof_of_work()`
flag, and `header().hash_previous_block`.  Hashes are abstracted to
`Nat`, ordered as the 256-bit big-endian comparison of `sha256`. -/
structure work_block where
  hash : Nat
  target : Nat
  is_proof_of_work : Bool
  hash_previous_block : Nat
deriving DecidableEq, Repr

/-- The side effects of one `mining_manager::check_work` call:
whether `reserve_key.keep_key()` ran, whether a zero getdata-request
counter was recorded under the block hash in `wallet->request_counts()`,
and whether the block was posted to `stack_impl::process_block`. -/
structure check_work_result where
  key_kept : Bool
  request_count_recorded : Bool
  block_processed : Bool
deriving DecidableEq, Repr

/-- `mining_manager::check_work(blk, wallet, reserve_key, is_proof_of_stake)`
against the current `globals::hash_best_chain()`.  In source order:
return if the block hash exceeds the target while the block is
proof-of-work; return (stale) if `hash_previous_block` differs from the
best-chain hash; otherwise keep the reserved key, record a zero request
count for the block hash, and post the block to the acceptance
pipeline. -/
def mining_manager.check_work (blk : work_block) (hash_best_chain : Nat) :
    check_work_result :=
  if blk.target < blk.hash ∧ blk.is_proof_of_work = true then
    { key_kept := false, request_count_recorded := false,
      block_processed := false }
  else if blk.hash_previous_block ≠ hash_best_chain then
    { key_kept := false, request_count_recorded := false,
      block_processed := false }
  else
    { key_kept := true, request_count_recorded := true,
      block_processed := true }

/-- The data `increment_extra_nonce` pushes into the coinbase input script:
`script() << height << big_number(extra_nonce)` followed by the global
coinbase flags (left abstract). -/
structure coinbase_script_sig where
  height : Nat
  extra_nonce_value : Nat
deriving DecidableEq, Repr

/-- Result of one `mining_manager::increment_extra_nonce` call: the new
value of the function-static `hash_previous`, the new value of the
caller's 32-bit `extra_nonce`, and the script signature written into the
coinbase input.  (The call then rebuilds the merkle root from the updated
transaction list; the root value is abstract and carries no information
used by the claims.) -/
structure extra_nonce_result where
  hash_previous : Nat
  extra_nonce : Nat
  script_sig : coinbase_script_sig
deriving DecidableEq, Repr

/-- `mining_manager::increment_extra_nonce(blk, index_previous, extra_nonce)`:
if the static `hash_previous` differs from the block's
`hash_previous_block`, reset `extra_nonce` to zero and remember the new
parent hash; then increment `extra_nonce` (a `std::uint32_t`, hence
modulo 2^32) and write `height = index_previous->height() + 1` and the
incremented nonce into the coinbase script signature. -/
def mining_manager.increment_extra_nonce (blk_hash_previous_block : Nat)
    (index_previous_height : Nat) (hash_previous : Nat) (extra_nonce : Nat) :
    extra_nonce_result :=
  let reset := hash_previous ≠ blk_hash_previous_block
  let hp := if reset then blk_hash_previous_block else hash_previous
  let en0 := if reset then 0 else extra_nonce
  let en := (en0 + 1) % 2 ^ 32
  { hash_previous := hp, extra_nonce := en,
    script_sig :=
      { height := (index_previous_height + 1) % 2 ^ 32,
        extra_nonce_value := en } }

/-- The per-thread nonce sequence of `mining_manager::loop` restricted to
its `increment_extra_nonce` calls, all against the same parent block hash
`h`: the static `hash_previous` starts as the default-constructed
`sha256` (all-zero digest, modelled as 0) and the thread-local
`extra_nonce` starts at 0; `extra_nonce_iter h n` is the pair
(`hash_previous`, `extra_nonce`) after `n` calls. -/
def extra_nonce_iter (h : Nat) : Nat → Nat × Nat
  | 0 => (0, 0)
  | n + 1 =>
    let s := extra_nonce_iter h n
    let r := mining_manager.increment_extra_nonce h 0 s.1 s.2
    (r.hash_previous, r.extra_nonce)

/-- A DNS query of the bootstrap resolution: host name and port
(`boost::asio::ip::tcp::resolver::query`). -/
structure resolver_query where
  host : String
  port : Nat
deriving DecidableEq, Repr

/-- The two ways `tcp_connection_manager::do_resolve` can fail to be a
well-defined sequential resolution in a total embedding: `front_of_empty`
models `queries.front()` evaluated on an empty vector (undefined
behaviour in the source), `too_many` models the failing
`assert(queries.size() <= 100)`. -/
inductive resolve_error
  | front_of_empty
  | too_many
deriving DecidableEq, Repr

/-- `tcp_connection_manager::do_resolve(queries)`, with the asynchronous
resolver replaced by an oracle `resolver` returning the resolved endpoint
or `none` for a resolution error.  The source asserts
`queries.size() <= 100`, unconditionally resolves `queries.front()`, adds
the resolved endpoint (on success; on error it only logs) to the address
manager, and its completion handler recurses on the tail exactly when the
tail is non-empty.  The returned list collects the endpoints handed to
`address_manager::add`. -/
def tcp_connection_manager.do_resolve (resolver : resolver_query → Option endpoint) :
    List resolver_query → Except resolve_error (List endpoint)
  | [] => .error .front_of_empty
  | q :: tl =>
    if (q :: tl).length > 100 then .error .too_many
    else
      let added :=
        match resolver q with
        | some ep => [ep]
        | none => []
      if tl.length > 0 then
        match tcp_connection_manager.do_resolve resolver tl with
        | .ok rest => .ok (added ++ rest)
        | .error e => .error e
      else
        .ok added

/-- `tcp_connection_manager::start()` up to its timer arm: build one
resolver query per configured bootstrap node, shuffle them
(`std::random_shuffle`, abstracted to a caller-supplied permutation), and
start `do_resolve` on the result. -/
def tcp_connection_manager.start (shuffle : List resolver_query → List resolver_query)
    (resolver : resolver_query → Option endpoint)
    (bootstrap_nodes : List (String × Nat)) : Except resolve_error (List endpoint) :=
  tcp_connection_manager.do_resolve resolver
    (shuffle (bootstrap_nodes.map (fun p => { host := p.1, port := p.2 })))

/-- The transition edges the spec allows for each mining state machine:
none|stopped → starting → started → stopping → stopped. -/
def allowed_transition : machine_state → machine_state → Prop
  | .state_none, .state_starting => True
  | .state_stopped, .state_starting => True
  | .state_starting, .state_started => True
  | .state_started, .state_stopping => True
  | .state_stopping, .state_stopped => True
  | _, _ => False

/-! ## Helper lemmas -/

lemma map_insert_length_le (t : List conn_entry) (e : conn_entry) :
    (map_insert t e).length ≤ t.length + 1 := by
  unfold map_insert
  split
  · simp
  · simp

lemma map_insert_of_fresh (t : List conn_entry) (e : conn_entry)
    (h : t.any (fun v => v.ep = e.ep) = false) :
    map_insert t e = t ++ [e] := by
  unfold map_insert
  rw [h]
  simp

/-! ## C1: stale blocks never reach the acceptance pipeline -/

/-- C1: a block whose `hash_previous_block` differs from the chain's current
best-chain hash makes `check_work` return without posting the block to
`process_block`, without consuming the reserved key, and without
recording a getdata-request counter. -/
theorem check_work_stale_no_effects (blk : work_block) (best : Nat)
    (h : blk.hash_previous_block ≠ best) :
    (mining_manager.check_work blk best).block_processed = false ∧
    (mining_manager.check_work blk best).key_kept = false ∧
    (mining_manager.check_work blk best).request_count_recorded = false := by
  by_cases h1 : blk.target < blk.hash ∧ blk.is_proof_of_work = true
  · simp [mining_manager.check_work, h1]
  · simp [mining_manager.check_work, h1, h]

/-- Witness for C1 at a concrete stale block. -/
theorem check_work_stale_no_effects_witness :
    (mining_manager.check_work
        { hash := 3, target := 10, is_proof_of_work := true,
          hash_previous_block := 7 } 9).block_processed = false ∧
    (mining_manager.check_work
        { hash := 3, target := 10, is_proof_of_work := true,
          hash_previous_block := 7 } 9).key_kept = false ∧
    (mining_manager.check_work
        { hash := 3, target := 10, is_proof_of_work := true,
          hash_previous_block := 7 } 9).request_count_recorded = false :=
  check_work_stale_no_effects _ 9 (by decide)

/-! ## C3: duplicate-IP rejection in handle_accept -/

/-- C3: when some table entry already has the remote IP address of the
accepted transport (any port), `handle_accept` stops the transport,
inserts nothing, and leaves the table unchanged. -/
theorem handle_accept_duplicate_ip (env : cm_env) (table : List conn_entry)
    (remote : endpoint) (e : conn_entry) (he : e ∈ table)
    (haddr : e.ep.addr = remote.addr) :
    (tcp_connection_manager.handle_accept env table remote).transport_stopped = true ∧
    (tcp_connection_manager.handle_accept env table remote).inserted = false ∧
    (tcp_connection_manager.handle_accept env table remote).table = table := by
  have hdup : table.any (fun v => v.ep.addr = remote.addr) = true :=
    List.any_eq_true.mpr ⟨e, he, by simp [haddr]⟩
  unfold tcp_connection_manager.handle_accept
  rw [if_pos hdup]
  exact ⟨rfl, rfl, rfl⟩

/-- Witness for C3: a second connection from IP 4 (different port) is
dropped while the table holds a connection from IP 4. -/
theorem handle_accept_duplicate_ip_witness :
    (tcp_connection_manager.handle_accept
        { banned := fun _ => false, groupOf := id, adjusted_time := 0,
          inbound_max := 8 }
        [{ ep := { addr := 4, port := 1000 }, alive := true,
           transport_valid := true, remote := some { addr := 4, port := 1000 } }]
        { addr := 4, port := 2000 }).transport_stopped = true ∧
    (tcp_connection_manager.handle_accept
        { banned := fun _ => false, groupOf := id, adjusted_time := 0,
          inbound_max := 8 }
        [{ ep := { addr := 4, port := 1000 }, alive := true,
           transport_valid := true, remote := some { addr := 4, port := 1000 } }]
        { addr := 4, port := 2000 }).inserted = false ∧
    (tcp_connection_manager.handle_accept
        { banned := fun _ => false, groupOf := id, adjusted_time := 0,
          inbound_max := 8 }
        [{ ep := { addr := 4, port := 1000 }, alive := true,
           transport_valid := true, remote := some { addr := 4, port := 1000 } }]
        { addr := 4, port := 2000 }).table =
      [{ ep := { addr := 4, port := 1000 }, alive := true,
         transport_valid := true, remote := some { addr := 4, port := 1000 } }] :=
  handle_accept_duplicate_ip _ _ _
    { ep := { addr := 4, port := 1000 }, alive := true,
      transport_valid := true, remote := some { addr := 4, port := 1000 } }
    (by simp) (by decide)

/-! ## C4: connect rejects banned and already-present endpoints -/

/-- C4: `connect(ep)` returns `false` with no table change and no
address-book attempt notification both when `ep.address` is banned and
when `ep` is already a key of the connection table. -/
theorem connect_banned_or_present_no_effect (env : cm_env)
    (table : List conn_entry) (ep : endpoint) :
    (env.banned ep.addr = true →
      (tcp_connection_manager.connect env table ep).ok = false ∧
      (tcp_connection_manager.connect env table ep).table = table ∧
      (tcp_connection_manager.connect env table ep).attempt_notified = false) ∧
    ((∃ e ∈ table, e.ep = ep) →
      (tcp_connection_manager.connect env table ep).ok = false ∧
      (tcp_connection_manager.connect env table ep).table = table ∧
      (tcp_connection_manager.connect env table ep).attempt_notified = false) := by
  constructor
  · intro hban
    unfold tcp_connection_manager.connect
    rw [if_pos hban]
    exact ⟨rfl, rfl, rfl⟩
  · intro ⟨e, he, hee⟩
    have hmem : table.any (fun v => v.ep = ep) = true :=
      List.any_eq_true.mpr ⟨e, he, by simp [hee]⟩
    unfold tcp_connection_manager.connect
    split
    · exact ⟨rfl, rfl, rfl⟩
    · rw [hmem]
      exact ⟨rfl, rfl, rfl⟩

/-- Witness for C4: a banned endpoint and an already-present endpoint are
both rejected without side effects. -/
theorem connect_banned_or_present_no_effect_witness :
    ((tcp_connection_manager.connect
        { banned := fun a => a = 9, groupOf := id, adjusted_time := 0,
          inbound_max := 8 }
        [] { addr := 9, port := 1 }).ok = false ∧
     (tcp_connection_manager.connect
        { banned := fun a => a = 9, groupOf := id, adjusted_time := 0,
          inbound_max := 8 }
        [] { addr := 9, port := 1 }).table = [] ∧
     (tcp_connection_manager.connect
        { banned := fun a => a = 9, groupOf := id, adjusted_time := 0,
          inbound_max := 8 }
        [] { addr := 9, port := 1 }).attempt_notified = false) ∧
    ((tcp_connection_manager.connect
        { banned := fun _ => false, groupOf := id, adjusted_time := 0,
          inbound_max := 8 }
        [{ ep := { addr := 2, port := 5 }, alive := true,
           transport_valid := true, remote := none }]
        { addr := 2, port := 5 }).ok = false ∧
     (tcp_connection_manager.connect
        { banned := fun _ => false, groupOf := id, adjusted_time := 0,
          inbound_max := 8 }
        [{ ep := { addr := 2, port := 5 }, alive := true,
           transport_valid := true, remote := none }]
        { addr := 2, port := 5 }).table =
       [{ ep := { addr := 2, port := 5 }, alive := true,
          transport_valid := true, remote := none }] ∧
     (tcp_connection_manager.connect
        { banned := fun _ => false, groupOf := id, adjusted_time := 0,
          inbound_max := 8 }
        [{ ep := { addr := 2, port := 5 }, alive := true,
           transport_valid := true, remote := none }]
        { addr := 2, port := 5 }).attempt_notified = false) :=
  ⟨(connect_banned_or_present_no_effect _ _ _).1 (by decide),
   (connect_banned_or_present_no_effect _ _ _).2
     ⟨{ ep := { addr := 2, port := 5 }, alive := true,
        transport_valid := true, remote := none },
      by simp, by decide⟩⟩

/-! ## C5: inbound capacity limit in handle_accept -/

/-- C5: when the table has reached the configured inbound maximum,
`handle_accept` stops the transport and inserts nothing; in general
`handle_accept` never grows the table beyond
`network_tcp_inbound_maximum`. -/
theorem handle_accept_capacity (env : cm_env) (table : List conn_entry)
    (remote : endpoint) :
    (env.inbound_max ≤ table.length →
      (tcp_connection_manager.handle_accept env table remote).transport_stopped = true ∧
      (tcp_connection_manager.handle_accept env table remote).inserted = false ∧
      (tcp_connection_manager.handle_accept env table remote).table = table) ∧
    (tcp_connection_manager.handle_accept env table remote).table.length ≤
      max table.length env.inbound_max := by
  by_cases h1 : table.any (fun e => e.ep.addr = remote.addr) = true
  · simp [tcp_connection_manager.handle_accept, h1]
  · by_cases h2 : env.banned remote.addr = true
    · simp [tcp_connection_manager.handle_accept, h1, h2]
    · by_cases h3 : env.inbound_max ≤ table.length
      · simp [tcp_connection_manager.handle_accept, h1, h2, h3]
      · refine ⟨fun hcap => absurd hcap h3, ?_⟩
        simp only [tcp_connection_manager.handle_accept, h1, h2, h3,
          if_false, if_true, Bool.false_eq_true, ite_false]
        refine le_trans (map_insert_length_le _ _)
          (le_trans ?_ (le_max_right _ _))
        omega

/-- Witness for C5, the spec scenario: inbound maximum 2, two connections
held, a third inbound attempt from a fresh IP is stopped and the table
stays at size 2. -/
theorem handle_accept_capacity_witness :
    (tcp_connection_manager.handle_accept
        { banned := fun _ => false, groupOf := id, adjusted_time := 0,
          inbound_max := 2 }
        [{ ep := { addr := 1, port := 10 }, alive := true,
           transport_valid := true, remote := some { addr := 1, port := 10 } },
         { ep := { addr := 2, port := 20 }, alive := true,
           transport_valid := true, remote := some { addr := 2, port := 20 } }]
        { addr := 3, port := 30 }).transport_stopped = true ∧
    (tcp_connection_manager.handle_accept
        { banned := fun _ => false, groupOf := id, adjusted_time := 0,
          inbound_max := 2 }
        [{ ep := { addr := 1, port := 10 }, alive := true,
           transport_valid := true, remote := some { addr := 1, port := 10 } },
         { ep := { addr := 2, port := 20 }, alive := true,
           transport_valid := true, remote := some { addr := 2, port := 20 } }]
        { addr := 3, port := 30 }).inserted = false ∧
    (tcp_connection_manager.handle_accept
        { banned := fun _ => false, groupOf := id, adjusted_time := 0,
          inbound_max := 2 }
        [{ ep := { addr := 1, port := 10 }, alive := true,
           transport_valid := true, remote := some { addr := 1, port := 10 } },
         { ep := { addr := 2, port := 20 }, alive := true,
           transport_valid := true, remote := some { addr := 2, port := 20 } }]
        { addr := 3, port := 30 }).table =
      [{ ep := { addr := 1, port := 10 }, alive := true,
         transport_valid := true, remote := some { addr := 1, port := 10 } },
       { ep := { addr := 2, port := 20 }, alive := true,
         transport_valid := true, remote := some { addr := 2, port := 20 } }] :=
  (handle_accept_capacity _ _ _).1 (by decide)

/-! ## C9: mine-cpu configuration and worker-thread count -/

lemma start_proof_of_stake_pow_fields (m : mining_manager) :
    (mining_manager.start_proof_of_stake m).m_state_pow = m.m_state_pow ∧
    (mining_manager.start_proof_of_stake m).threads_ = m.threads_ := by
  unfold mining_manager.start_proof_of_stake
  split
  · exact ⟨rfl, rfl⟩
  · exact ⟨rfl, rfl⟩

/-- C9: a positive "mine-cpu" argument makes `start()` start proof-of-work
with exactly one worker thread, whatever the configured value; a zero or
absent argument leaves the proof-of-work side untouched; proof-of-stake
is started unconditionally. -/
theorem start_mine_cpu_threads (m : mining_manager) (v : Int) :
    (0 < v →
      (m.m_state_pow = .state_none ∨ m.m_state_pow = .state_stopped) →
      (mining_manager.start (some v) m).m_state_pow = .state_started ∧
      (mining_manager.start (some v) m).threads_ = m.threads_ + 1) ∧
    ((mining_manager.start (some 0) m).m_state_pow = m.m_state_pow ∧
     (mining_manager.start (some 0) m).threads_ = m.threads_) ∧
    ((mining_manager.start none m).m_state_pow = m.m_state_pow ∧
     (mining_manager.start none m).threads_ = m.threads_) ∧
    ((m.m_state_pos = .state_none ∨ m.m_state_pos = .state_stopped) →
      ∀ a : Option Int, (mining_manager.start a m).m_state_pos = .state_started) := by
  have hpos := start_proof_of_stake_pow_fields m
  refine ⟨?_, ?_, ?_, ?_⟩
  · intro hv hrest
    have hguard : pow_start_guard (mining_manager.start_proof_of_stake m) = true := by
      unfold pow_start_guard
      rcases hrest with h | h <;>
        simp [hpos.1, h, machine_state.code]
    unfold mining_manager.start
    simp only [hv, if_pos]
    unfold mining_manager.start_proof_of_work
    rw [hguard]
    simp [hpos.2]
  · unfold mining_manager.start
    simp [hpos.1, hpos.2]
  · unfold mining_manager.start
    exact ⟨hpos.1, hpos.2⟩
  · intro hrest a
    have hguard : pos_start_guard m = true := by
      unfold pos_start_guard
      rcases hrest with h | h <;> simp [h, machine_state.code]
    have hstake : (mining_manager.start_proof_of_stake m).m_state_pos =
        .state_started := by
      unfold mining_manager.start_proof_of_stake
      rw [hguard]
      rfl
    have hpow : ∀ m' : mining_manager,
        (mining_manager.start_proof_of_work m').m_state_pos = m'.m_state_pos := by
      intro m'
      unfold mining_manager.start_proof_of_work
      split <;> rfl
    cases a with
    | none => exact hstake
    | some v =>
      unfold mining_manager.start
      by_cases hv : v > 0
      · simp only [hv, if_pos]
        rw [hpow, hstake]
      · simp only [hv, if_neg, if_false]
        simpa using hstake

/-- Witness for C9 at the constructor state: "mine-cpu" = 4 still spawns
exactly one thread; "mine-cpu" = 0 and an absent argument spawn none;
proof-of-stake starts in every case. -/
theorem start_mine_cpu_threads_witness :
    ((mining_manager.start (some 4) mining_manager.init).m_state_pow =
        .state_started ∧
     (mining_manager.start (some 4) mining_manager.init).threads_ = 0 + 1) ∧
    ((mining_manager.start (some 0) mining_manager.init).m_state_pow =
        mining_manager.init.m_state_pow ∧
     (mining_manager.start (some 0) mining_manager.init).threads_ = 0) ∧
    ((mining_manager.start none mining_manager.init).m_state_pos =
        .state_started) :=
  ⟨(start_mine_cpu_threads mining_manager.init 4).1 (by decide) (Or.inl rfl),
   (start_mine_cpu_threads mining_manager.init 4).2.1,
   (start_mine_cpu_threads mining_manager.init 4).2.2.2 (Or.inl rfl) none⟩

/-! ## C2: extra-nonce counter behaviour -/

lemma extra_nonce_iter_spec (k : Nat) :
    (extra_nonce_iter 1 (k + 1)).1 = 1 ∧
    (extra_nonce_iter 1 (k + 1)).2 = (k + 1) % 2 ^ 32 := by
  induction k with
  | zero =>
    constructor
    · rfl
    · norm_num [extra_nonce_iter, mining_manager.increment_extra_nonce]
  | succ n ih =>
    have step : extra_nonce_iter 1 (n + 1 + 1) =
        (let s := extra_nonce_iter 1 (n + 1)
         let r := mining_manager.increment_extra_nonce 1 0 s.1 s.2
         (r.hash_previous, r.extra_nonce)) := rfl
    rw [step]
    simp only [ih.1, ih.2]
    unfold mining_manager.increment_extra_nonce
    constructor
    · simp
    · simp only [ne_eq, not_true_eq_false, if_false, ite_self]
      simp [Nat.mod_add_mod, Nat.add_assoc]

/-- Counterexample to C2 as stated: with the parent tip hash fixed (here 1)
throughout, after 2^32 - 1 calls the counter sits at 2^32 - 1, and the
next call does not set it to the old value plus one — `extra_nonce` is a
`std::uint32_t` and wraps to 0. -/
theorem extra_nonce_not_strictly_increasing :
    (extra_nonce_iter 1 (2 ^ 32 - 1)).2 = 2 ^ 32 - 1 ∧
    (extra_nonce_iter 1 (2 ^ 32)).2 ≠ (extra_nonce_iter 1 (2 ^ 32 - 1)).2 + 1 := by
  have h1 := extra_nonce_iter_spec (2 ^ 32 - 2)
  have h2 := extra_nonce_iter_spec (2 ^ 32 - 1)
  have e1 : 2 ^ 32 - 2 + 1 = 2 ^ 32 - 1 := by norm_num
  have e2 : 2 ^ 32 - 1 + 1 = 2 ^ 32 := by norm_num
  rw [e1] at h1
  rw [e2] at h2
  constructor
  · rw [h1.2]
    norm_num
  · rw [h1.2, h2.2]
    norm_num

/-- C2 (amended): while the candidate's parent hash equals the last observed
one, a call sets the 32-bit counter to its old value plus one modulo
2^32 — a strict increase by one whenever the old value is below
2^32 - 1; the first call with a differing parent hash resets the counter
to zero before incrementing, so the counter and the value embedded in
the coinbase script are then 1, and the new parent hash is remembered. -/
theorem increment_extra_nonce_amended (h hgt hp en : Nat) :
    (hp = h →
      (mining_manager.increment_extra_nonce h hgt hp en).extra_nonce =
        (en + 1) % 2 ^ 32) ∧
    (hp = h → en < 2 ^ 32 - 1 →
      (mining_manager.increment_extra_nonce h hgt hp en).extra_nonce = en + 1) ∧
    (hp ≠ h →
      (mining_manager.increment_extra_nonce h hgt hp en).extra_nonce = 1 ∧
      (mining_manager.increment_extra_nonce h hgt hp
          en).script_sig.extra_nonce_value = 1 ∧
      (mining_manager.increment_extra_nonce h hgt hp en).hash_previous = h) := by
  refine ⟨?_, ?_, ?_⟩
  · intro he
    simp [mining_manager.increment_extra_nonce, he]
  · intro he hlt
    have : (en + 1) % 2 ^ 32 = en + 1 := Nat.mod_eq_of_lt (by omega)
    simp [mining_manager.increment_extra_nonce, he, this]
    omega
  · intro hne
    refine ⟨?_, ?_, ?_⟩ <;> simp [mining_manager.increment_extra_nonce, hne]

/-- Witness for the amended C2: concrete same-hash increment 5 → 6 and a
reset-to-1 on a changed parent hash. -/
theorem increment_extra_nonce_amended_witness :
    (mining_manager.increment_extra_nonce 9 0 9 5).extra_nonce = 5 + 1 ∧
    (mining_manager.increment_extra_nonce 8 0 9 5).extra_nonce = 1 ∧
    (mining_manager.increment_extra_nonce 8 0 9 5).script_sig.extra_nonce_value = 1 :=
  ⟨(increment_extra_nonce_amended 9 0 9 5).2.1 rfl (by norm_num),
   ((increment_extra_nonce_amended 8 0 9 5).2.2 (by decide)).1,
   ((increment_extra_nonce_amended 8 0 9 5).2.2 (by decide)).2.1⟩

/-! ## C10: non-empty query list as precondition of do_resolve -/

lemma do_resolve_ok_of_nonempty (resolver : resolver_query → Option endpoint) :
    ∀ qs : List resolver_query, qs ≠ [] → qs.length ≤ 100 →
      ∃ l, tcp_connection_manager.do_resolve resolver qs = .ok l := by
  intro qs
  induction qs with
  | nil => intro h _; exact absurd rfl h
  | cons q tl ih =>
    intro _ hlen
    have hc : ¬((q :: tl).length > 100) := by
      simp only [List.length_cons]
      simp only [List.length_cons] at hlen
      omega
    unfold tcp_connection_manager.do_resolve
    rw [if_neg hc]
    by_cases ht : tl.length > 0
    · have htne : tl ≠ [] := by
        cases tl
        · simp at ht
        · simp
      have hlen2 : tl.length ≤ 100 := by
        simp only [List.length_cons] at hlen
        omega
      obtain ⟨l, hl⟩ := ih htne hlen2
      rw [if_pos ht, hl]
      exact ⟨_, rfl⟩
    · rw [if_neg ht]
      exact ⟨_, rfl⟩

/-- C10: `do_resolve` dereferences `queries.front()` unconditionally and its
completion handler recurses only on non-empty tails, so under the sanity
bound of 100 queries the front-of-empty error is hit exactly on the empty
list — a non-empty query list is a precondition — and `start()` with an
empty bootstrap-node list (any shuffling permutation) violates it. -/
theorem do_resolve_front_precondition (resolver : resolver_query → Option endpoint) :
    (∀ qs : List resolver_query, qs.length ≤ 100 →
      ((tcp_connection_manager.do_resolve resolver qs).isOk = true ↔ qs ≠ [])) ∧
    tcp_connection_manager.do_resolve resolver [] = .error .front_of_empty ∧
    (∀ shuffle : List resolver_query → List resolver_query,
      (∀ l, List.Perm (shuffle l) l) →
      tcp_connection_manager.start shuffle resolver [] =
        .error .front_of_empty) := by
  refine ⟨?_, rfl, ?_⟩
  · intro qs hlen
    constructor
    · intro hok hnil
      rw [hnil] at hok
      simp [tcp_connection_manager.do_resolve, Except.isOk, Except.toBool] at hok
    · intro hne
      obtain ⟨l, hl⟩ := do_resolve_ok_of_nonempty resolver qs hne hlen
      rw [hl]
      rfl
  · intro shuffle hperm
    have hnil : shuffle [] = [] := (hperm []).eq_nil
    unfold tcp_connection_manager.start
    simp only [List.map_nil, hnil]
    rfl

/-- Witness for C10: a singleton query list resolves without error, the
empty list yields the front-of-empty error, and `start` on an empty
bootstrap list (identity shuffle) hits it. -/
theorem do_resolve_front_precondition_witness :
    ((tcp_connection_manager.do_resolve (fun _ => none)
        [{ host := "seed", port := 80 }]).isOk = true) ∧
    tcp_connection_manager.do_resolve (fun _ => (none : Option endpoint)) [] =
      .error .front_of_empty ∧
    tcp_connection_manager.start (fun l => l) (fun _ => none) [] =
      .error .front_of_empty :=
  ⟨((do_resolve_front_precondition (fun _ => none)).1
      [{ host := "seed", port := 80 }] (by simp)).mpr (by simp),
   (do_resolve_front_precondition (fun _ => none)).2.1,
   (do_resolve_front_precondition (fun _ => none)).2.2
     (fun l => l) (fun l => List.Perm.refl l)⟩

/-! ## C8: proof-of-work start/stop state machine -/

lemma pow_start_guard_iff (m : mining_manager) :
    pow_start_guard m = true ↔
      (m.m_state_pow = .state_none ∨ m.m_state_pow = .state_stopped) := by
  cases hm : m.m_state_pow <;>
    simp [pow_start_guard, machine_state.code, hm]

lemma reach_pow_rest (m : mining_manager) (h : mining_manager.Reach m) :
    m.m_state_pow = .state_none ∨ m.m_state_pow = .state_started ∨
      m.m_state_pow = .state_stopped := by
  induction h with
  | init => exact Or.inl rfl
  | start_pow _ ih =>
    unfold mining_manager.start_proof_of_work
    split
    · exact Or.inr (Or.inl rfl)
    · exact ih
  | stop_pow _ ih =>
    unfold mining_manager.stop_proof_of_work
    split
    · exact Or.inr (Or.inr rfl)
    · exact ih
  | start_pos _ ih =>
    unfold mining_manager.start_proof_of_stake
    split
    · simpa using ih
    · exact ih
  | stop_pos _ ih =>
    unfold mining_manager.stop_proof_of_stake
    split
    · simpa using ih
    · exact ih
  | pub hps t _ ih => simpa using ih

/-- C8: the proof-of-work state machine only moves along
none|stopped → starting → started → stopping → stopped:
`start_proof_of_work` is a no-op at starting/started and otherwise passes
through starting to started; `stop_proof_of_work` is a no-op unless
started, and otherwise passes through stopping to stopped while zeroing
the hash rate, the rate-window start, and the thread handles; every state
assignment follows an allowed edge, and every state observable outside
the lock is none, started or stopped. -/
theorem pow_state_machine (m : mining_manager) :
    ((m.m_state_pow = .state_starting ∨ m.m_state_pow = .state_started) →
      mining_manager.start_proof_of_work m = m) ∧
    ((m.m_state_pow = .state_none ∨ m.m_state_pow = .state_stopped) →
      mining_manager.start_proof_of_work_trace m =
        [.state_starting, .state_started] ∧
      (mining_manager.start_proof_of_work m).m_state_pow = .state_started) ∧
    (m.m_state_pow ≠ .state_started →
      mining_manager.stop_proof_of_work m = m) ∧
    (m.m_state_pow = .state_started →
      mining_manager.stop_proof_of_work_trace m =
        [.state_stopping, .state_stopped] ∧
      (mining_manager.stop_proof_of_work m).m_state_pow = .state_stopped ∧
      (mining_manager.stop_proof_of_work m).m_hashes_per_second = 0 ∧
      (mining_manager.stop_proof_of_work m).m_hps_timer_start = 0 ∧
      (mining_manager.stop_proof_of_work m).threads_ = 0) ∧
    List.Chain' allowed_transition
      (m.m_state_pow :: mining_manager.start_proof_of_work_trace m) ∧
    List.Chain' allowed_transition
      (m.m_state_pow :: mining_manager.stop_proof_of_work_trace m) ∧
    (mining_manager.Reach m →
      m.m_state_pow = .state_none ∨ m.m_state_pow = .state_started ∨
        m.m_state_pow = .state_stopped) := by
  refine ⟨?_, ?_, ?_, ?_, ?_, ?_, fun hr => reach_pow_rest m hr⟩
  · intro h
    have hg : ¬ pow_start_guard m = true := by
      rw [pow_start_guard_iff]
      rcases h with h | h <;> simp [h]
    unfold mining_manager.start_proof_of_work
    rw [if_neg hg]
  · intro h
    have hg : pow_start_guard m = true := (pow_start_guard_iff m).mpr h
    unfold mining_manager.start_proof_of_work
      mining_manager.start_proof_of_work_trace
    rw [hg]
    exact ⟨rfl, rfl⟩
  · intro h
    unfold mining_manager.stop_proof_of_work
    rw [if_neg h]
  · intro h
    unfold mining_manager.stop_proof_of_work
      mining_manager.stop_proof_of_work_trace
    simp [h]
  · by_cases hg : pow_start_guard m = true
    · have h := (pow_start_guard_iff m).mp hg
      unfold mining_manager.start_proof_of_work_trace
      rw [hg]
      rcases h with h | h <;>
        simp [h, List.chain'_cons, allowed_transition]
    · unfold mining_manager.start_proof_of_work_trace
      rw [if_neg hg]
      simp
  · by_cases h : m.m_state_pow = .state_started
    · unfold mining_manager.stop_proof_of_work_trace
      rw [if_pos h]
      simp [h, List.chain'_cons, allowed_transition]
    · unfold mining_manager.stop_proof_of_work_trace
      rw [if_neg h]
      simp

/-- Witness for C8: from the constructor state, `start_proof_of_work`
reaches started through the starting assignment, and `stop_proof_of_work`
then reaches stopped with the hash rate and the thread handles cleared. -/
theorem pow_state_machine_witness :
    mining_manager.start_proof_of_work_trace mining_manager.init =
      [.state_starting, .state_started] ∧
    (mining_manager.start_proof_of_work mining_manager.init).m_state_pow =
      .state_started ∧
    (mining_manager.stop_proof_of_work
        (mining_manager.start_proof_of_work mining_manager.init)).m_state_pow =
      .state_stopped ∧
    (mining_manager.stop_proof_of_work
        (mining_manager.start_proof_of_work
          mining_manager.init)).m_hashes_per_second = 0 ∧
    (mining_manager.stop_proof_of_work
        (mining_manager.start_proof_of_work mining_manager.init)).threads_ = 0 :=
  ⟨((pow_state_machine mining_manager.init).2.1 (Or.inl rfl)).1,
   ((pow_state_machine mining_manager.init).2.1 (Or.inl rfl)).2,
   ((pow_state_machine
       (mining_manager.start_proof_of_work mining_manager.init)).2.2.2.1
     (by rfl)).2.1,
   ((pow_state_machine
       (mining_manager.start_proof_of_work mining_manager.init)).2.2.2.1
     (by rfl)).2.2.1,
   ((pow_state_machine
       (mining_manager.start_proof_of_work mining_manager.init)).2.2.2.1
     (by rfl)).2.2.2.2⟩

/-! ## C6 and C7: the tick top-up pass -/

lemma in_same_group_eq_false_iff (env : cm_env) (t : List conn_entry)
    (a : network_address_t) :
    in_same_group env t a = false ↔
      ∀ e ∈ t, e.alive = true → ∀ r, e.remote = some r →
        env.groupOf r.addr ≠ env.groupOf a.addr := by
  unfold in_same_group
  rw [List.any_eq_false]
  constructor
  · intro h e he ha r hr hg
    have hne := h e he
    rw [ha, hr] at hne
    simp [hg] at hne
  · intro h e he
    cases ha : e.alive with
    | false => simp [ha]
    | true =>
      cases hr : e.remote with
      | none => simp [hr]
      | some r =>
        simp only [hr, Bool.and_eq_true, decide_eq_true_eq, not_and]
        intro _
        exact h e he ha r hr

lemma connect_table_extends (env : cm_env) (t : List conn_entry) (ep : endpoint) :
    ∃ ext, (tcp_connection_manager.connect env t ep).table = t ++ ext := by
  unfold tcp_connection_manager.connect
  by_cases h1 : env.banned ep.addr = true
  · exact ⟨[], by simp [h1]⟩
  · by_cases h2 : t.any (fun e => e.ep = ep) = false
    · refine ⟨[⟨ep, true, true, none⟩], ?_⟩
      simp only [h1, h2]
      simp only [Bool.false_eq_true, if_false, if_true]
      exact map_insert_of_fresh t ⟨ep, true, true, none⟩ (by simpa using h2)
    · exact ⟨[], by simp [h1, h2]⟩

/-- Every `connect` call recorded by the top-up loop started from iteration
`i` comes from a candidate (at its own iteration index) that was valid,
non-local, in no diversity group of any alive, endpoint-reporting entry
of the entry table, and past the 600-second backoff; moreover the loop
only ever appends entries to the table. -/
lemma tick_top_up_calls_sound (env : cm_env) (min_conn : Nat)
    (cands : Nat → network_address_t) :
    ∀ n i table calls,
      min_conn - i = n →
      (∃ ext, (tcp_connection_manager.tick_top_up env min_conn cands i table
          calls).1 = table ++ ext) ∧
      (∀ p ∈ (tcp_connection_manager.tick_top_up env min_conn cands i table
          calls).2,
        p ∈ calls ∨
          (i ≤ p.1 ∧ p.2 = (cands p.1).to_endpoint ∧
           (cands p.1).valid = true ∧ (cands p.1).is_local = false ∧
           (∀ e ∈ table, e.alive = true → ∀ r, e.remote = some r →
             env.groupOf r.addr ≠ env.groupOf (cands p.1).addr) ∧
           600 ≤ env.adjusted_time - (cands p.1).last_try)) := by
  intro n
  induction n with
  | zero =>
    intro i table calls hn
    have hnot : ¬ i < min_conn - table.length := by
      have := Nat.sub_le min_conn table.length
      omega
    rw [tcp_connection_manager.tick_top_up, dif_neg hnot]
    exact ⟨⟨[], by simp⟩, fun p hp => Or.inl hp⟩
  | succ n' ih =>
    intro i table calls hn
    by_cases hlt : i < min_conn - table.length
    · have hi : i < min_conn := by
        have := Nat.sub_le min_conn table.length
        omega
      have hn' : min_conn - (i + 1) = n' := by omega
      rw [tcp_connection_manager.tick_top_up, dif_pos hlt]
      by_cases hskip : (cands i).valid = false ∨ (cands i).is_local = true ∨
          in_same_group env table (cands i) = true
      · simp only [hskip, if_true]
        obtain ⟨hext, hsound⟩ := ih (i + 1) table calls hn'
        refine ⟨hext, fun p hp => ?_⟩
        rcases hsound p hp with h | h
        · exact Or.inl h
        · exact Or.inr ⟨by omega, h.2⟩
      · simp only [hskip, if_false]
        by_cases hback : env.adjusted_time - (cands i).last_try < 600
        · simp only [hback, if_true]
          obtain ⟨hext, hsound⟩ := ih (i + 1) table calls hn'
          refine ⟨hext, fun p hp => ?_⟩
          rcases hsound p hp with h | h
          · exact Or.inl h
          · exact Or.inr ⟨by omega, h.2⟩
        · simp only [hback, if_false]
          obtain ⟨ext0, hconv⟩ := connect_table_extends env table
            (cands i).to_endpoint
          obtain ⟨⟨ext, hext⟩, hsound⟩ := ih (i + 1)
            (tcp_connection_manager.connect env table (cands i).to_endpoint).table
            (calls ++ [(i, (cands i).to_endpoint)]) hn'
          push_neg at hskip
          have hval : (cands i).valid = true := by
            cases hv : (cands i).valid
            · exact absurd hv hskip.1
            · rfl
          have hloc : (cands i).is_local = false := by
            cases hv : (cands i).is_local
            · rfl
            · exact absurd hv hskip.2.1
          have hgrpb : in_same_group env table (cands i) = false := by
            cases hv : in_same_group env table (cands i)
            · rfl
            · exact absurd hv hskip.2.2
          have hgrp := (in_same_group_eq_false_iff env table (cands i)).mp hgrpb
          refine ⟨⟨ext0 ++ ext, ?_⟩, fun p hp => ?_⟩
          · rw [hext, hconv, List.append_assoc]
          · rcases hsound p hp with h | h
            · rcases List.mem_append.mp h with h | h
              · exact Or.inl h
              · have hpe : p = (i, (cands i).to_endpoint) := by simpa using h
                refine Or.inr ?_
                rw [hpe]
                exact ⟨le_refl i, rfl, hval, hloc, hgrp,
                  Int.not_lt.mp hback⟩
            · refine Or.inr ⟨by omega, h.2.1, h.2.2.1, h.2.2.2.1, ?_,
                h.2.2.2.2.2⟩
              intro e he
              exact h.2.2.2.2.1 e (by rw [hconv]; exact List.mem_append_left _ he)
    · rw [tcp_connection_manager.tick_top_up, dif_neg hlt]
      exact ⟨⟨[], by simp⟩, fun p hp => Or.inl hp⟩

/-- C6: every endpoint `tick` hands to `connect` comes from its own
iteration's candidate and that candidate's last attempt lies at least 600
seconds in the past; consequently an iteration whose candidate was tried
less than 600 seconds ago contributes no `connect` call at all. -/
theorem tick_rate_limit (env : cm_env) (min_conn : Nat)
    (cands : Nat → network_address_t) (table : List conn_entry) :
    (∀ p ∈ (tcp_connection_manager.tick env min_conn cands table).2,
      p.2 = (cands p.1).to_endpoint ∧
      600 ≤ env.adjusted_time - (cands p.1).last_try) ∧
    (∀ j, env.adjusted_time - (cands j).last_try < 600 →
      ∀ ep, (j, ep) ∉ (tcp_connection_manager.tick env min_conn cands table).2) := by
  have hmain : ∀ p ∈ (tcp_connection_manager.tick env min_conn cands table).2,
      p.2 = (cands p.1).to_endpoint ∧
      600 ≤ env.adjusted_time - (cands p.1).last_try := by
    intro p hp
    unfold tcp_connection_manager.tick at hp
    by_cases hc : (tcp_connection_manager.prune table).length < min_conn + 1
    · rw [if_pos hc] at hp
      have hs := (tick_top_up_calls_sound env min_conn cands (min_conn - 0) 0
        (tcp_connection_manager.prune table) [] rfl).2 p hp
      rcases hs with h | h
      · simp at h
      · exact ⟨h.2.1, h.2.2.2.2.2⟩
    · rw [if_neg hc] at hp
      simp at hp
  refine ⟨hmain, fun j hj ep hmem => ?_⟩
  have h2 : 600 ≤ env.adjusted_time - (cands j).last_try :=
    (hmain (j, ep) hmem).2
  omega

/-- Witness for C6: in a concrete run the single connect call made by
`tick` belongs to a candidate last tried 1000 seconds ago. -/
theorem tick_rate_limit_witness :
    ((0 : Nat), ({ addr := 50, port := 7 } : endpoint)) ∈
      (tcp_connection_manager.tick ⟨fun _ => false, id, 1000, 8⟩ 1
        (fun j => ⟨50 + j, 7, 0, 0, true, false⟩) []).2 ∧
    600 ≤ (⟨fun _ => false, id, 1000, 8⟩ : cm_env).adjusted_time -
      ((fun j => (⟨50 + j, 7, 0, 0, true, false⟩ : network_address_t)) 0).last_try := by
  have hmem : ((0 : Nat), ({ addr := 50, port := 7 } : endpoint)) ∈
      (tcp_connection_manager.tick ⟨fun _ => false, id, 1000, 8⟩ 1
        (fun j => ⟨50 + j, 7, 0, 0, true, false⟩) []).2 := by
    show ((0 : Nat), ({ addr := 50, port := 7 } : endpoint)) ∈
      (tcp_connection_manager.tick_top_up ⟨fun _ => false, id, 1000, 8⟩ 1
        (fun j => ⟨50 + j, 7, 0, 0, true, false⟩) 0 [] []).2
    rw [tcp_connection_manager.tick_top_up]
    norm_num [in_same_group, tcp_connection_manager.connect, map_insert,
      network_address_t.to_endpoint]
    rw [tcp_connection_manager.tick_top_up]
    norm_num
  refine ⟨hmem, ?_⟩
  exact ((tick_rate_limit _ _ _ _).1 _ hmem).2

/-- The diversity-group classifier of a table entry: the group of the
remote address under which the entry is keyed. -/
def entry_group (env : cm_env) (e : conn_entry) : Nat := env.groupOf e.ep.addr

/-- No two entries of the table share a diversity group. -/
def table_groups_distinct (env : cm_env) (t : List conn_entry) : Prop :=
  t.Pairwise (fun a b => entry_group env a ≠ entry_group env b)

/-- The entry `connect` retains for a fresh outbound endpoint: started, but
its socket not yet connected. -/
def out_entry (ep : endpoint) : conn_entry :=
  { ep := ep, alive := true, transport_valid := true, remote := none }

lemma tick_top_up_shape (env : cm_env) (min_conn : Nat)
    (cands : Nat → network_address_t) (table0 : List conn_entry)
    (hvis : ∀ e ∈ table0, e.alive = true ∧ ∃ r, e.remote = some r ∧
      env.groupOf r.addr = env.groupOf e.ep.addr) :
    ∀ n i js calls,
      min_conn - i = n →
      (∀ j ∈ js, j < i) →
      List.Pairwise (fun a b => a ≠ b) js →
      (∀ j ∈ js, ∀ e ∈ table0,
        env.groupOf e.ep.addr ≠ env.groupOf (cands j).addr) →
      ∃ js2 : List Nat,
        (tcp_connection_manager.tick_top_up env min_conn cands i
          (table0 ++ js.map (fun j => out_entry (cands j).to_endpoint))
          calls).1 =
          table0 ++ js2.map (fun j => out_entry (cands j).to_endpoint) ∧
        List.Pairwise (fun a b => a ≠ b) js2 ∧
        (∀ j ∈ js2, ∀ e ∈ table0,
          env.groupOf e.ep.addr ≠ env.groupOf (cands j).addr) := by
  intro n
  induction n with
  | zero =>
    intro i js calls hn hjs hpw hclash
    have hnot : ¬ i < min_conn -
        (table0 ++ js.map (fun j => out_entry (cands j).to_endpoint)).length := by
      have := Nat.sub_le min_conn
        (table0 ++ js.map (fun j => out_entry (cands j).to_endpoint)).length
      omega
    rw [tcp_connection_manager.tick_top_up, dif_neg hnot]
    exact ⟨js, rfl, hpw, hclash⟩
  | succ n' ih =>
    intro i js calls hn hjs hpw hclash
    set tbl := table0 ++ js.map (fun j => out_entry (cands j).to_endpoint)
      with htbl
    by_cases hlt : i < min_conn - tbl.length
    · have hi : i < min_conn := by
        have := Nat.sub_le min_conn tbl.length
        omega
      have hn' : min_conn - (i + 1) = n' := by omega
      have hjs' : ∀ j ∈ js, j < i + 1 := fun j hj => by
        have := hjs j hj
        omega
      rw [tcp_connection_manager.tick_top_up, dif_pos hlt]
      by_cases hskip : (cands i).valid = false ∨ (cands i).is_local = true ∨
          in_same_group env tbl (cands i) = true
      · simp only [hskip, if_true]
        exact ih (i + 1) js calls hn' hjs' hpw hclash
      · simp only [hskip, if_false]
        by_cases hback : env.adjusted_time - (cands i).last_try < 600
        · simp only [hback, if_true]
          exact ih (i + 1) js calls hn' hjs' hpw hclash
        · simp only [hback, if_false]
          push_neg at hskip
          have hgrpb : in_same_group env tbl (cands i) = false := by
            cases hv : in_same_group env tbl (cands i)
            · rfl
            · exact absurd hv hskip.2.2
          have hgrp := (in_same_group_eq_false_iff env tbl (cands i)).mp hgrpb
          have hclash_i : ∀ e ∈ table0,
              env.groupOf e.ep.addr ≠ env.groupOf (cands i).addr := by
            intro e he
            obtain ⟨halive, r, hr, hgr⟩ := hvis e he
            have := hgrp e (List.mem_append_left _ he) halive r hr
            rw [hgr] at this
            exact this
          by_cases hban : env.banned (cands i).to_endpoint.addr = true
          · have hconn : (tcp_connection_manager.connect env tbl
                (cands i).to_endpoint).table = tbl := by
              simp [tcp_connection_manager.connect, hban]
            rw [hconn]
            exact ih (i + 1) js (calls ++ [(i, (cands i).to_endpoint)])
              hn' hjs' hpw hclash
          · by_cases hfresh : tbl.any (fun e => e.ep = (cands i).to_endpoint)
                = false
            · have hconn : (tcp_connection_manager.connect env tbl
                  (cands i).to_endpoint).table =
                  tbl ++ [out_entry (cands i).to_endpoint] := by
                simp only [tcp_connection_manager.connect, hban, hfresh]
                simp only [Bool.false_eq_true, if_false, if_true]
                exact map_insert_of_fresh tbl (out_entry (cands i).to_endpoint)
                  (by simpa [out_entry] using hfresh)
              have hsplit : tbl ++ [out_entry (cands i).to_endpoint] =
                  table0 ++ (js ++ [i]).map
                    (fun j => out_entry (cands j).to_endpoint) := by
                rw [htbl, List.map_append, List.append_assoc]
                rfl
              rw [hconn, hsplit]
              refine ih (i + 1) (js ++ [i])
                (calls ++ [(i, (cands i).to_endpoint)]) hn' ?_ ?_ ?_
              · intro j hj
                rcases List.mem_append.mp hj with h | h
                · have := hjs j h
                  omega
                · have : j = i := by simpa using h
                  omega
              · rw [List.pairwise_append]
                refine ⟨hpw, by simp, ?_⟩
                intro a ha b hb
                have hbi : b = i := by simpa using hb
                have := hjs a ha
                omega
              · intro j hj e he
                rcases List.mem_append.mp hj with h | h
                · exact hclash j h e he
                · have : j = i := by simpa using h
                  rw [this]
                  exact hclash_i e he
            · have hconn : (tcp_connection_manager.connect env tbl
                  (cands i).to_endpoint).table = tbl := by
                simp [tcp_connection_manager.connect, hban, hfresh]
              rw [hconn]
              exact ih (i + 1) js (calls ++ [(i, (cands i).to_endpoint)])
                hn' hjs' hpw hclash
    · rw [tcp_connection_manager.tick_top_up, dif_neg hlt]
      exact ⟨js, rfl, hpw, hclash⟩

/-- C7: over a full tick top-up pass, a candidate whose diversity group
matches that of some already-connected peer — and any invalid or local
candidate — is never handed to `connect`; and provided the pruned table's
entries report consistent remote endpoints, the pruned table's groups are
pairwise distinct, and the offered candidates carry pairwise-distinct
groups, the table after the pass still has no two entries sharing a
group. -/
theorem tick_group_diversity (env : cm_env) (min_conn : Nat)
    (cands : Nat → network_address_t) (table : List conn_entry)
    (hvis : ∀ e ∈ tcp_connection_manager.prune table, e.alive = true ∧
      ∃ r, e.remote = some r ∧ env.groupOf r.addr = env.groupOf e.ep.addr)
    (hdis : table_groups_distinct env (tcp_connection_manager.prune table))
    (hcands : ∀ i j : Nat, i ≠ j →
      env.groupOf (cands i).addr ≠ env.groupOf (cands j).addr) :
    table_groups_distinct env
      (tcp_connection_manager.tick env min_conn cands table).1 ∧
    (∀ p ∈ (tcp_connection_manager.tick env min_conn cands table).2,
      p.2 = (cands p.1).to_endpoint ∧
      (cands p.1).valid = true ∧ (cands p.1).is_local = false ∧
      (∀ e ∈ tcp_connection_manager.prune table, e.alive = true →
        ∀ r, e.remote = some r →
          env.groupOf r.addr ≠ env.groupOf (cands p.1).addr)) := by
  unfold tcp_connection_manager.tick
  by_cases hc : (tcp_connection_manager.prune table).length < min_conn + 1
  · rw [if_pos hc]
    constructor
    · have hshape := tick_top_up_shape env min_conn cands
        (tcp_connection_manager.prune table) hvis (min_conn - 0) 0 [] []
        rfl (by simp) (by simp) (by simp)
      rw [List.map_nil, List.append_nil] at hshape
      obtain ⟨js2, heq, hpw, hclash⟩ := hshape
      rw [heq]
      unfold table_groups_distinct
      rw [List.pairwise_append]
      refine ⟨hdis, ?_, ?_⟩
      · rw [List.pairwise_map]
        exact hpw.imp (fun hab => hcands _ _ hab)
      · intro a ha b hb
        rw [List.mem_map] at hb
        obtain ⟨j, hj, hbj⟩ := hb
        rw [← hbj]
        exact hclash j hj a ha
    · intro p hp
      have hs := (tick_top_up_calls_sound env min_conn cands (min_conn - 0) 0
        (tcp_connection_manager.prune table) [] rfl).2 p hp
      rcases hs with h | h
      · simp at h
      · exact ⟨h.2.1, h.2.2.1, h.2.2.2.1, h.2.2.2.2.1⟩
  · rw [if_neg hc]
    exact ⟨hdis, by simp⟩

/-- Witness for C7: a concrete pass over a table holding one connected peer
(group 5) and candidates with pairwise-distinct groups keeps all table
groups distinct. -/
theorem tick_group_diversity_witness :
    table_groups_distinct ⟨fun _ => false, id, 1000, 8⟩
      (tcp_connection_manager.tick ⟨fun _ => false, id, 1000, 8⟩ 2
        (fun j => ⟨50 + j, 7, 0, 0, true, false⟩)
        [⟨⟨5, 9⟩, true, true, some ⟨5, 9⟩⟩]).1 :=
  (tick_group_diversity ⟨fun _ => false, id, 1000, 8⟩ 2
    (fun j => ⟨50 + j, 7, 0, 0, true, false⟩)
    [⟨⟨5, 9⟩, true, true, some ⟨5, 9⟩⟩]
    (by intro e he; simp [tcp_connection_manager.prune] at he;
        exact ⟨by rw [he], ⟨5, 9⟩, by rw [he], by rw [he]⟩)
    (by simp [table_groups_distinct, tcp_connection_manager.prune])
    (by intro i j hij; simpa using fun habs => hij (by omega))).1
